import Mathlib

/-!
Verification of the OpenMolt agent core against its specification.

This file gives a shallow embedding, in Lean, of the parts of the
`python-bot-v2` sources that the verified properties talk about:

* `openresponses/types.py` — the Item schema (`MessageItem`,
  `FunctionCallItem`, `FunctionCallOutputItem`, `ReasoningItem`), the
  accessors `ResponseResource.get_text` / `get_function_calls`, and the
  helper `function_output`.
* `openresponses/agent.py` — `ToolRegistry` (`register`, `execute`) and
  the agentic loop `Agent.think`.
* `openresponses/adapters.py` — the HTTP-error path of the adapters'
  `create_response`.
* `memory.py` — `AgentMemory`: block editing (`update_block`,
  `replace_in_block`, `insert_in_block`) and the archival store
  (`remember`, `recall` in its keyword-fallback branch).

Conventions: Python dicts keyed by strings become association lists with
first-match lookup; Python exceptions become `Except`; the LLM client and
the JSON parser (`json.loads`) are abstract function parameters, so every
theorem quantifies over their behaviour; character counts use Lean's
`String.length`, which, like Python's `len`, counts Unicode code points.
-/

namespace OpenMolt

/-- A content part of a message or tool output (`InputTextContent`,
`OutputTextContent` from `openresponses/types.py`): a `type` tag and text. -/
structure ContentPart where
  kind : String
  text : String
deriving DecidableEq, Repr

/-- The Item tagged union from `openresponses/types.py` (`MessageItem`,
`FunctionCallItem`, `FunctionCallOutputItem`, `ReasoningItem`). -/
inductive Item where
  | message (role : String) (content : List ContentPart)
  | functionCall (callId name arguments : String)
  | functionCallOutput (callId : String) (output : List ContentPart)
  | reasoning (summary : String)
deriving DecidableEq, Repr

/-- A function call as returned by `ResponseResource.get_function_calls`:
the `call_id`, `name` and JSON-string `arguments` fields of a
`function_call` item. -/
structure FC where
  callId : String
  name : String
  arguments : String
deriving DecidableEq, Repr

/-- The sequence of output items of a `ResponseResource`; the loop only
looks at `response.output`. -/
abbrev Output := List Item

/-- Embeds `ResponseResource.get_function_calls`: all `function_call`
items of the output, in emission order. -/
def getFunctionCalls (output : Output) : List FC :=
  output.filterMap fun it =>
    match it with
    | .functionCall cid n a => some ⟨cid, n, a⟩
    | _ => none

/-- Scan a content list for the first part with type `output_text`
(the inner loop of `ResponseResource.get_text`). -/
def firstOutputText : List ContentPart → Option String
  | [] => none
  | p :: ps => if p.kind = "output_text" then some p.text else firstOutputText ps

/-- Embeds `ResponseResource.get_text`: the first `output_text` content of
any `message` item; messages without one are skipped. -/
def getText : Output → Option String
  | [] => none
  | .message _ content :: rest =>
      match firstOutputText content with
      | some t => some t
      | none => getText rest
  | _ :: rest => getText rest

/-- A JSON value, the result of `json.loads` on an arguments string. -/
inductive JVal where
  | null
  | bool (b : Bool)
  | num (n : Int)
  | str (s : String)
  | arr (elems : List JVal)
  | obj (fields : List (String × JVal))

/-- The value a tool handler returns: either a Python `str` (passed through
verbatim) or any other value, carried here by its `json.dumps` rendering
(the only use the loop makes of a non-string result). -/
inductive RVal where
  | str (s : String)
  | other (dumped : String)
deriving DecidableEq, Repr

/-- Embeds the serialization in `Agent.think`:
`json.dumps(result) if not isinstance(result, str) else result`.
`function_output` applies the same rule when building the output item. -/
def serializeRVal : RVal → String
  | .str s => s
  | .other j => j

/-- A tool handler: receives the parsed keyword arguments, returns a value
or raises (modelled by `Except`, the error carrying `str(e)`). -/
abbrev Handler := List (String × JVal) → Except String RVal

/-- A JSON-arguments parser (`json.loads`): succeeds with a keyword
dictionary or raises a decode error. The loop is parametric in it. -/
abbrev ArgParser := String → Except String (List (String × JVal))

/-- First-match lookup in an association list (a Python dict read). -/
def dictGet (k : String) : List (String × α) → Option α
  | [] => none
  | (k', v) :: rest => if k' = k then some v else dictGet k rest

/-- Update-or-append in an association list (a Python dict assignment
`d[k] = v`). -/
def dictSet (k : String) (v : α) : List (String × α) → List (String × α)
  | [] => [(k, v)]
  | (k', v') :: rest => if k' = k then (k, v) :: rest else (k', v') :: dictSet k v rest

/-- A registered tool (`FunctionTool` from `openresponses/types.py`). -/
structure FunctionTool where
  name : String
  description : String
  parameters : JVal
  strict : Bool

/-- The tool registry from `openresponses/agent.py`: the `tools` list and
the `handlers` dict. -/
structure ToolRegistry where
  tools : List FunctionTool
  handlers : List (String × Handler)

/-- The empty registry (`ToolRegistry.__init__`). -/
def ToolRegistry.empty : ToolRegistry := ⟨[], []⟩

/-- Embeds `ToolRegistry.register`: appends the new `FunctionTool` to the
`tools` list and assigns `handlers[name] = handler`. The source performs
no duplicate check. -/
def ToolRegistry.register (r : ToolRegistry) (name description : String)
    (parameters : JVal) (handler : Handler) (strict : Bool := false) : ToolRegistry :=
  { tools := r.tools ++ [⟨name, description, parameters, strict⟩],
    handlers := dictSet name handler r.handlers }

/-- Embeds `ToolRegistry.execute`: raises `ValueError(f"Unknown tool: {name}")`
when the name is unregistered, otherwise calls the handler. -/
def ToolRegistry.execute (r : ToolRegistry) (name : String)
    (args : List (String × JVal)) : Except String RVal :=
  match dictGet name r.handlers with
  | none => .error ("Unknown tool: " ++ name)
  | some h => h args

/-- The fallible part of executing one function call inside `Agent.think`:
`json.loads` on the arguments string, then `registry.execute`. Any error is
the exception the `try` block would see. -/
def execCallE (parseJson : ArgParser) (r : ToolRegistry) (fc : FC) : Except String RVal :=
  match parseJson fc.arguments with
  | .error e => .error e
  | .ok args => r.execute fc.name args

/-- The text stored in the paired `function_call_output` for one call:
the serialized result on success, `f"Error: {str(e)}"` when the `try`
block caught an exception. -/
def execCall (parseJson : ArgParser) (r : ToolRegistry) (fc : FC) : String :=
  match execCallE parseJson r fc with
  | .ok v => serializeRVal v
  | .error e => "Error: " ++ e

/-- Flatten executed calls into context items: for each call, the
`function_call` item then a `function_call_output` item built by
`function_output(call_id, result)` (an `input_text` part). -/
def pairItems : List (FC × String) → List Item
  | [] => []
  | (fc, res) :: rest =>
      .functionCall fc.callId fc.name fc.arguments ::
      .functionCallOutput fc.callId [⟨"input_text", res⟩] :: pairItems rest

/-- Execute every function call of one iteration, in provider order. -/
def execPairs (parseJson : ArgParser) (r : ToolRegistry) (fcs : List FC) :
    List (FC × String) :=
  fcs.map fun fc => (fc, execCall parseJson r fc)

/-- The iteration loop of `Agent.think`, fuelled by the remaining
iteration budget. Returns the final text and the list of contexts at which
the client was called (one entry per model call). The Discord callbacks
(`on_iteration`, `on_tool_call`, `on_response`) are pure notifications
whose exceptions the source swallows, so they are omitted. -/
def thinkAux (client : List Item → Output) (r : ToolRegistry)
    (parseJson : ArgParser) : Nat → List Item → String × List (List Item)
  | 0, _ => ("Agent reached maximum iterations without completing.", [])
  | fuel + 1, items =>
    let outputItems := client items
    let fcs := getFunctionCalls outputItems
    if fcs.isEmpty then
      ((getText outputItems).getD "", [items])
    else
      let next := thinkAux client r parseJson fuel
        (items ++ pairItems (execPairs parseJson r fcs))
      (next.1, items :: next.2)

/-- The initial context of `Agent.think`: optional system message, the
caller-supplied context items, then the user message (both messages carry
one `input_text` part). -/
def initialItems (systemPrompt : String) (context : List Item)
    (userInput : String) : List Item :=
  (if systemPrompt ≠ "" then [Item.message "system" [⟨"input_text", systemPrompt⟩]] else [])
    ++ context ++ [Item.message "user" [⟨"input_text", userInput⟩]]

/-- Embeds `Agent.think`: run the loop from the initial context for
`max_iterations` iterations and return the final text. -/
def Agent.think (client : List Item → Output) (r : ToolRegistry)
    (parseJson : ArgParser) (maxIterations : Nat) (systemPrompt : String)
    (context : List Item) (userInput : String) : String :=
  (thinkAux client r parseJson maxIterations
    (initialItems systemPrompt context userInput)).1

/-- The contexts `Agent.think` passes to `client.create_response`, in
order: one per model call actually made. -/
def thinkContexts (client : List Item → Output) (r : ToolRegistry)
    (parseJson : ArgParser) (maxIterations : Nat) (systemPrompt : String)
    (context : List Item) (userInput : String) : List (List Item) :=
  (thinkAux client r parseJson maxIterations
    (initialItems systemPrompt context userInput)).2

/-! ## Python string primitives used by `memory.py`

`str.count`, the `in` operator, `str.replace(old, new, 1)`,
`str.split("\n")` and `"\n".join` are modelled on `List Char`, following
CPython semantics (non-overlapping occurrence counting; the empty pattern
occurs `len + 1` times and is contained in every string). -/

/-- Whether `s` starts with `pat` (character-list version of
`str.startswith`, used to locate occurrences). -/
def startsWithL : List Char → List Char → Bool
  | _, [] => true
  | [], _ :: _ => false
  | c :: cs, p :: ps => decide (c = p) && startsWithL cs ps

/-- Python `pat in s` (substring containment). -/
def containsSub : List Char → List Char → Bool
  | _, [] => true
  | [], _ :: _ => false
  | c :: cs, p :: ps =>
      startsWithL (c :: cs) (p :: ps) || containsSub cs (p :: ps)

/-- The left-to-right scan behind Python `s.count(pat)` for a non-empty
pattern: at each position either still skipping the tail of the previous
match (`skip > 0`), or testing for `pat` and, on a hit, counting it and
skipping its remaining `len(pat) - 1` characters (occurrences do not
overlap). -/
def countOccGo (pat : List Char) : List Char → Nat → Nat
  | [], _ => 0
  | _ :: cs, Nat.succ skip => countOccGo pat cs skip
  | c :: cs, 0 =>
      if startsWithL (c :: cs) pat then 1 + countOccGo pat cs (pat.length - 1)
      else countOccGo pat cs 0

/-- Python `s.count(pat)`: non-overlapping occurrences, scanning left to
right; the empty pattern counts `len(s) + 1`. -/
def countOcc (s pat : List Char) : Nat :=
  match pat with
  | [] => s.length + 1
  | p :: ps => countOccGo (p :: ps) s 0

/-- Restatement of `countOcc` whose recursion steps over whole matches
(dropping the matched pattern at once); used for reasoning and proved
equal to `countOcc` below. -/
def countOccR (s pat : List Char) : Nat :=
  match s, pat with
  | s, [] => s.length + 1
  | [], _ :: _ => 0
  | c :: cs, p :: ps =>
      if startsWithL (c :: cs) (p :: ps) then
        1 + countOccR ((c :: cs).drop (p :: ps).length) (p :: ps)
      else
        countOccR cs (p :: ps)
termination_by s.length
decreasing_by
  · simp only [List.length_drop, List.length_cons]
    omega
  · simp only [List.length_cons]
    omega

/-- Python `s.replace(old, new, 1)`: replace the leftmost occurrence only;
an empty `old` inserts `new` in front. -/
def replaceOnce (s pat new : List Char) : List Char :=
  match s, pat with
  | s, [] => new ++ s
  | [], _ :: _ => []
  | c :: cs, p :: ps =>
      if startsWithL (c :: cs) (p :: ps) then
        new ++ (c :: cs).drop (p :: ps).length
      else
        c :: replaceOnce cs (p :: ps) new

/-- Python `s.split("\n")` (note: on the empty string this yields one
empty field, matching CPython). -/
def splitNl : List Char → List (List Char)
  | [] => [[]]
  | c :: cs =>
      if c = '\n' then [] :: splitNl cs
      else
        match splitNl cs with
        | [] => [[c]]
        | l :: ls => (c :: l) :: ls

/-- Python `"\n".join(lines)`. -/
def joinNl : List (List Char) → List Char
  | [] => []
  | [l] => l
  | l :: ls => l ++ '\n' :: joinNl ls

/-- Insert at a clamped nonnegative position (`list.insert` after index
normalization). Inserting past the end appends. -/
def insertAt : Nat → α → List α → List α
  | 0, x, l => x :: l
  | _ + 1, x, [] => [x]
  | n + 1, x, c :: cs => c :: insertAt n x cs

/-- Python `list.insert(i, x)`: nonnegative indices clamp to the length,
negative indices count from the end and clamp to the front. -/
def pyInsert (i : Int) (x : α) (l : List α) : List α :=
  if 0 ≤ i then insertAt (min i.toNat l.length) x l
  else insertAt ((l.length : Int) + i).toNat x l

/-! ## Core memory blocks (`memory.py`, class `AgentMemory`) -/

/-- One core memory block: the `{value, description, limit}` record stored
under a label in `data["blocks"]`. -/
structure Block where
  value : String
  description : String
  limit : Nat
deriving DecidableEq, Repr

/-- The labelled block map (a Python dict keyed by label). -/
abbrev Blocks := List (String × Block)

/-- Set the `value` field of the block stored under `label`. -/
def setBlockValue (blocks : Blocks) (label : String) (v : String) : Blocks :=
  blocks.map fun kv => if kv.1 = label then (kv.1, { kv.2 with value := v }) else kv

/-- Result dict of `AgentMemory.update_block`. -/
inductive UpdateBlockResult where
  | error (msg : String)
  | success (updated : String) (length : Nat)
deriving DecidableEq, Repr

/-- Embeds `AgentMemory.update_block`: missing label or an over-limit value
returns an error dict without mutating; otherwise the value is replaced
wholesale and persisted. -/
def update_block (blocks : Blocks) (label value : String) :
    UpdateBlockResult × Blocks :=
  match dictGet label blocks with
  | none => (.error ("Block " ++ label ++ " does not exist."), blocks)
  | some b =>
      if b.limit < value.length then
        (.error ("Value too long (" ++ toString value.length ++ " chars). Limit is "
          ++ toString b.limit ++ "."), blocks)
      else
        (.success label value.length, setBlockValue blocks label value)

/-- Result dict of `AgentMemory.replace_in_block` / `insert_in_block`
(`status`-keyed dicts in the source). -/
inductive BlockOpResult where
  | error (msg : String)
  | success (block : String) (newLength : Nat)
deriving DecidableEq, Repr

/-- Embeds `AgentMemory.replace_in_block`: requires `old_str` to be present
(Python `in`), rejects multiple matches (`str.count > 1`), performs one
substitution (`str.replace(old, new, 1)`), and re-validates the limit
before storing. -/
def replace_in_block (blocks : Blocks) (label old_str new_str : String) :
    BlockOpResult × Blocks :=
  match dictGet label blocks with
  | none => (.error ("Block " ++ label ++ " not found."), blocks)
  | some b =>
      let current := b.value.toList
      if ¬ containsSub current old_str.toList then
        (.error ("Text not found in block " ++ label), blocks)
      else if 1 < countOcc current old_str.toList then
        (.error "Multiple matches found - be more specific with old_str", blocks)
      else
        let newValue := (replaceOnce current old_str.toList new_str.toList).asString
        if b.limit < newValue.length then
          (.error ("Result exceeds limit (" ++ toString newValue.length ++ "/"
            ++ toString b.limit ++ " chars)"), blocks)
        else
          (.success label newValue.length, setBlockValue blocks label newValue)

/-- The line list `insert_in_block` edits:
`current.split("\n") if current else []`. -/
def blockLines (b : Block) : List (List Char) :=
  if b.value = "" then [] else splitNl b.value.toList

/-- The edited line list of `insert_in_block`: index 0 prepends, index
`-1` or any index `≥ len(lines)` appends, anything else goes through
Python `list.insert`. -/
def insertNewLines (b : Block) (new_str : String) (insert_line : Int) :
    List (List Char) :=
  if insert_line = 0 then new_str.toList :: blockLines b
  else if insert_line = -1 ∨ ((blockLines b).length : Int) ≤ insert_line then
    blockLines b ++ [new_str.toList]
  else pyInsert insert_line new_str.toList (blockLines b)

/-- The candidate new value of `insert_in_block`: the edited lines joined
with newlines. -/
def insertNewValue (b : Block) (new_str : String) (insert_line : Int) : String :=
  (joinNl (insertNewLines b new_str insert_line)).asString

/-- Embeds `AgentMemory.insert_in_block`: split the value into lines (an
empty value gives no lines), insert `new_str` (see `insertNewLines`), then
join and re-validate the limit before storing. -/
def insert_in_block (blocks : Blocks) (label new_str : String)
    (insert_line : Int := -1) : BlockOpResult × Blocks :=
  match dictGet label blocks with
  | none => (.error ("Block " ++ label ++ " not found"), blocks)
  | some b =>
      let newValue := insertNewValue b new_str insert_line
      if b.limit < newValue.length then
        (.error ("Result exceeds limit (" ++ toString newValue.length ++ "/"
          ++ toString b.limit ++ " chars)"), blocks)
      else
        (.success label newValue.length, setBlockValue blocks label newValue)

/-! ## Archival memory (`memory.py`) -/

/-- Maximum archival store size (`MAX_ARCHIVAL` in `memory.py`). -/
def MAX_ARCHIVAL : Nat := 1000

/-- One archival memory entry, as built by `AgentMemory.remember`. The
embedding vector is abstract data (the embeddings client is external). -/
structure MemEntry where
  id : String
  hash : String
  content : String
  tags : List String
  importance : Int
  created_at : String
  accessed_at : String
  access_count : Int
  embedding : Option (List Int)
deriving DecidableEq, Repr

/-- The eviction/ranking key `(importance, access_count)`, compared the way
Python compares int tuples: lexicographically. -/
def rankKey (m : MemEntry) : Lex (Int × Int) :=
  toLex (m.importance, m.access_count)

/-- Stable insertion into a list sorted descending by `key`: the new
element goes before the first element whose key is not greater, so equal
keys keep their original relative order — the behaviour of Python's stable
`list.sort(key=..., reverse=True)`. -/
def insertDesc (key : α → β) [LinearOrder β] (x : α) : List α → List α
  | [] => [x]
  | y :: ys => if key x < key y then y :: insertDesc key x ys else x :: y :: ys

/-- Stable sort, descending by `key` (Python `list.sort(key=..., reverse=True)`). -/
def sortDesc (key : α → β) [LinearOrder β] : List α → List α
  | [] => []
  | x :: xs => insertDesc key x (sortDesc key xs)

/-- The portion of `AgentMemory.data` the archival operations touch. -/
structure MemState where
  archival : List MemEntry
  memoriesWritten : Nat
  memoriesRead : Nat
deriving Repr

/-- Result dict of `AgentMemory.remember`. -/
inductive RememberResult where
  | duplicate
  | ok (memoryId : String)
deriving DecidableEq, Repr

/-- The entry `remember` constructs: content capped at 1000 characters,
at most 5 tags, importance clamped into `[1, 10]`, zero access count. -/
def mkArchivalEntry (hashFn : String → String)
    (embedFn : Option (String → List Int)) (now : String)
    (content : String) (tags : List String) (importance : Int) : MemEntry :=
  { id := hashFn content
    hash := hashFn content
    content := content.take 1000
    tags := tags.take 5
    importance := min (max importance 1) 10
    created_at := now
    accessed_at := now
    access_count := 0
    embedding := embedFn.map fun f => f content }

/-- Embeds `AgentMemory.remember`: reject when an existing entry carries
the same content hash; otherwise prepend the new entry and, if the store
now exceeds `MAX_ARCHIVAL`, sort descending by `(importance, access_count)`
and keep the first `MAX_ARCHIVAL` entries. The hash function (`md5`), the
optional embeddings client and the clock are abstract parameters. -/
def remember (hashFn : String → String) (embedFn : Option (String → List Int))
    (now : String) (st : MemState) (content : String) (tags : List String)
    (importance : Int) : RememberResult × MemState :=
  let h := hashFn content
  if st.archival.any (fun m => m.hash = h) then (.duplicate, st)
  else
    let entry := mkArchivalEntry hashFn embedFn now content tags importance
    let arch := entry :: st.archival
    let arch := if MAX_ARCHIVAL < arch.length then (sortDesc rankKey arch).take MAX_ARCHIVAL else arch
    (.ok h, { st with archival := arch, memoriesWritten := st.memoriesWritten + 1 })

/-- Python `query.lower().split()`, deduplicated as `set(...)`: lowercase,
split on whitespace runs, keep one copy of each word. -/
def queryWords (query : String) : List String :=
  ((query.toLower.split Char.isWhitespace).filter (· ≠ "")).eraseDups

/-- One entry's score in the keyword fallback of `recall`: `+2` per query
word contained in the lowercased content, `+3` per query word contained in
some lowercased tag, plus `importance / 2` (Python true division). -/
def keywordScore (words : List String) (m : MemEntry) : ℚ :=
  let contentLower := m.content.toLower.toList
  let tagsLower := m.tags.map fun t => t.toLower.toList
  let base : ℚ := words.foldl
    (fun acc w =>
      acc + (if containsSub contentLower w.toList then 2 else 0)
          + (if tagsLower.any (fun t => containsSub t w.toList) then 3 else 0))
    0
  base + (m.importance : ℚ) / 2

/-- Bump `accessed_at` / `access_count` of the first stored entry with the
given id (`AgentMemory._mark_accessed`, one result). -/
def markOne (now : String) (rid : String) : List MemEntry → List MemEntry
  | [] => []
  | m :: ms =>
      if m.id = rid then
        { m with accessed_at := now, access_count := m.access_count + 1 } :: ms
      else m :: markOne now rid ms

/-- Embeds `AgentMemory._mark_accessed` over all returned entries. -/
def markAccessed (now : String) (results : List (MemEntry × ℚ))
    (arch : List MemEntry) : List MemEntry :=
  results.foldl (fun a r => markOne now r.1.id a) arch

/-- The dict `recall` returns (`AgentMemory._clean_results`): the query,
the number of hits, the entries with their embedding removed, and the
search method tag. -/
structure RecallResult where
  query : String
  found : Nat
  memories : List MemEntry
  method : String
deriving DecidableEq, Repr

/-- Embeds `AgentMemory.recall` in the configuration without an embeddings
client (`self.embedder is None`), where the vector branch is skipped and
the keyword fallback runs: score every entry, keep strictly positive
scores, sort descending by score (stable), truncate to `limit`, mark the
returned entries accessed, and report them with embeddings stripped. -/
def AgentMemory.recall (now : String) (st : MemState) (query : String) (limit : Nat) :
    RecallResult × MemState :=
  let words := queryWords query
  let results := st.archival.filterMap fun m =>
    let s := keywordScore words m
    if 0 < s then some (m, s) else none
  let results := (sortDesc (fun r : MemEntry × ℚ => r.2) results).take limit
  let arch := markAccessed now results st.archival
  (⟨query, results.length, results.map fun r => { r.1 with embedding := none }, "keyword"⟩,
   { st with archival := arch, memoriesRead := st.memoriesRead + 1 })

/-! ## Provider adapters: the HTTP error path (`openresponses/adapters.py`) -/

/-- The provider transport's answer to the single `requests.post` call an
adapter makes. -/
structure HttpResponse where
  status : Nat
  headers : List (String × String)
  body : String

/-- What an adapter's `create_response` can produce. `ok` and `httpError`
are the source's behaviours (a parsed response, or the `requests.HTTPError`
that `raise_for_status` raises and `create_response` propagates);
`rateLimited` is the classification the spec describes for HTTP 429 and
exists so that property can be stated — the embedded code never builds it. -/
inductive AdapterOutcome where
  | ok (output : Output)
  | rateLimited (retryAfter : Nat)
  | httpError (status : Nat)
deriving DecidableEq, Repr

/-- An adapter call's outcome together with how many HTTP attempts it made. -/
structure AdapterResult where
  outcome : AdapterOutcome
  attempts : Nat
deriving DecidableEq, Repr

/-- Embeds `OpenRouterAdapter.create_response` after payload construction:
one `requests.post`, then `raise_for_status` — any 4xx/5xx status raises
and the `except` clause logs and re-raises — otherwise the JSON body is
translated to items (`_response_to_items_resp`, abstracted as
`decodeBody`). Exactly one attempt is ever made: there is no retry loop. -/
def openRouterCreateResponse (decodeBody : String → Output)
    (transport : HttpResponse) : AdapterResult :=
  if 400 ≤ transport.status ∧ transport.status < 600 then
    ⟨.httpError transport.status, 1⟩
  else
    ⟨.ok (decodeBody transport.body), 1⟩

/-- Embeds `OllamaAdapter.create_response` likewise: one streaming
`requests.post`, `raise_for_status` on 4xx/5xx, otherwise the SSE stream is
accumulated into a single assistant message (`decodeStream` abstracts the
chunk loop). One attempt, no retry loop. -/
def ollamaCreateResponse (decodeStream : String → String)
    (transport : HttpResponse) : AdapterResult :=
  if 400 ≤ transport.status ∧ transport.status < 600 then
    ⟨.httpError transport.status, 1⟩
  else
    ⟨.ok [.message "assistant" [⟨"output_text", decodeStream transport.body⟩]], 1⟩

/-! ## Association-list lemmas -/

theorem dictGet_dictSet_self (k : String) (v : α) (l : List (String × α)) :
    dictGet k (dictSet k v l) = some v := by
  induction l with
  | nil => simp [dictGet, dictSet]
  | cons kv rest ih =>
      obtain ⟨k', v'⟩ := kv
      by_cases hk : k' = k
      · simp [dictSet, dictGet, hk]
      · simp [dictSet, dictGet, hk, ih]

theorem dictGet_dictSet_ne (k k' : String) (v : α) (l : List (String × α))
    (h : k' ≠ k) : dictGet k' (dictSet k v l) = dictGet k' l := by
  have hne : ¬ k = k' := fun hh => h hh.symm
  induction l with
  | nil => simp [dictGet, dictSet, hne]
  | cons kv rest ih =>
      obtain ⟨k0, v0⟩ := kv
      by_cases hk : k0 = k
      · subst hk
        simp [dictSet, dictGet, hne]
      · simp [dictSet, dictGet, hk, ih]

theorem dictGet_setBlockValue_self (blocks : Blocks) (label v : String)
    (b : Block) (h : dictGet label blocks = some b) :
    dictGet label (setBlockValue blocks label v) = some { b with value := v } := by
  induction blocks with
  | nil => simp [dictGet] at h
  | cons kv rest ih =>
      obtain ⟨k0, b0⟩ := kv
      by_cases hk : k0 = label
      · subst hk
        simp [dictGet] at h
        subst h
        simp only [setBlockValue, List.map_cons, if_pos rfl]
        simp [dictGet]
      · simp only [dictGet, if_neg hk] at h
        simp only [setBlockValue, List.map_cons, if_neg hk]
        simp only [dictGet, if_neg hk]
        exact ih h

/-! ## C4 — block limit enforcement in `update_block` -/

/-- C4: for every existing block label and every string value,
`update_block(label, value)` with `len(value)` over the block's limit
returns a failure and leaves the stored value unchanged; within the limit
it succeeds and the stored value afterwards equals `value` exactly. -/
theorem C4_update_block_limit (blocks : Blocks) (label value : String)
    (b : Block) (h : dictGet label blocks = some b) :
    (b.limit < value.length →
      ∃ msg, update_block blocks label value = (.error msg, blocks)) ∧
    (value.length ≤ b.limit →
      (update_block blocks label value).1 = .success label value.length ∧
      dictGet label (update_block blocks label value).2 = some { b with value := value }) := by
  constructor
  · intro hl
    have heq : update_block blocks label value =
        (.error ("Value too long (" ++ toString value.length ++ " chars). Limit is "
          ++ toString b.limit ++ "."), blocks) := by
      simp only [update_block, h, if_pos hl]
    exact ⟨_, heq⟩
  · intro hl
    have hnl : ¬ b.limit < value.length := Nat.not_lt.mpr hl
    constructor
    · simp only [update_block, h, if_neg hnl]
    · simp only [update_block, h, if_neg hnl]
      exact dictGet_setBlockValue_self blocks label value b h

/-- Witness for C4 at a concrete block map: the label `persona` holds a
block with limit 3; updating with a 2-character value succeeds and stores
it verbatim. -/
theorem C4_update_block_limit_witness :
    dictGet "persona" [("persona", (⟨"p", "d", 3⟩ : Block))] = some ⟨"p", "d", 3⟩ ∧
    ("ab" : String).length ≤ 3 ∧
    ((update_block [("persona", (⟨"p", "d", 3⟩ : Block))] "persona" "ab").1 =
        .success "persona" ("ab" : String).length ∧
      dictGet "persona"
          (update_block [("persona", (⟨"p", "d", 3⟩ : Block))] "persona" "ab").2 =
        some ⟨"ab", "d", 3⟩) :=
  ⟨rfl, by decide,
    (C4_update_block_limit [("persona", ⟨"p", "d", 3⟩)] "persona" "ab"
      ⟨"p", "d", 3⟩ rfl).2 (by decide)⟩

/-! ## C9 — duplicate tool registration -/

/-- C9 counterexample: `ToolRegistry.register` performs no duplicate
check. Registering the name `t` twice is not rejected: the tools list ends
up holding `t` twice, and `execute` runs the second handler (last
registration wins), contradicting the claim that a duplicate registration
is detected and rejected and never overrides the earlier handler. -/
theorem C9_register_dup_counterexample :
    (((ToolRegistry.empty.register "t" "d1" .null
        (fun _ => .ok (.str "one"))).register "t" "d2" .null
        (fun _ => .ok (.str "two"))).tools.map FunctionTool.name) = ["t", "t"] ∧
    ((ToolRegistry.empty.register "t" "d1" .null
        (fun _ => .ok (.str "one"))).register "t" "d2" .null
        (fun _ => .ok (.str "two"))).execute "t" [] = .ok (.str "two") :=
  ⟨rfl, rfl⟩

/-- C9 amended: `register` never rejects a duplicate name. It always
appends the new `FunctionTool` to the tools list (so a re-registered name
appears once more there) and silently overwrites the handler binding, so
the name maps to the most recently registered handler; other names keep
their bindings. -/
theorem C9_register_overrides (r : ToolRegistry) (name description : String)
    (parameters : JVal) (handler : Handler) (strict : Bool) :
    (r.register name description parameters handler strict).tools =
      r.tools ++ [⟨name, description, parameters, strict⟩] ∧
    dictGet name (r.register name description parameters handler strict).handlers =
      some handler ∧
    ∀ other, other ≠ name →
      dictGet other (r.register name description parameters handler strict).handlers =
        dictGet other r.handlers := by
  refine ⟨rfl, dictGet_dictSet_self _ _ _, fun other hne => ?_⟩
  exact dictGet_dictSet_ne _ _ _ _ hne

/-- Witness for C9 amended at a concrete registry: registering `t` leaves
the binding of the distinct name `u` untouched. -/
theorem C9_register_overrides_witness :
    ("u" : String) ≠ "t" ∧
    dictGet "u" ((ToolRegistry.empty.register "t" "d" .null
        (fun _ => .ok (.str "one")) false).handlers) =
      dictGet "u" ToolRegistry.empty.handlers :=
  ⟨by decide,
    (C9_register_overrides ToolRegistry.empty "t" "d" .null
      (fun _ => .ok (.str "one")) false).2.2 "u" (by decide)⟩

/-! ## C8 — HTTP 429 at the adapter boundary -/

/-- C8 counterexample: a stub transport answering 429 with
`Retry-After: 30` makes `OpenRouterAdapter.create_response` propagate the
HTTP error; the outcome is not the structured rate-limit signal carrying
`retry_after = 30` that the claim demands (the code never reads the
header). -/
theorem C8_rate_limit_counterexample :
    (openRouterCreateResponse (fun _ => [])
        ⟨429, [("Retry-After", "30")], ""⟩).outcome = .httpError 429 ∧
    (openRouterCreateResponse (fun _ => [])
        ⟨429, [("Retry-After", "30")], ""⟩).outcome ≠ .rateLimited 30 :=
  ⟨rfl, by decide⟩

/-- C8 amended: when the transport answers an adapter's `create_response`
with HTTP 429, both adapters make exactly one HTTP attempt (no retries)
and propagate the raised `HTTPError` unclassified; no structured
rate-limit result is produced and the `Retry-After` hint is ignored. -/
theorem C8_rate_limit_propagates (decodeBody : String → Output)
    (decodeStream : String → String) (transport : HttpResponse)
    (h : transport.status = 429) :
    openRouterCreateResponse decodeBody transport = ⟨.httpError 429, 1⟩ ∧
    ollamaCreateResponse decodeStream transport = ⟨.httpError 429, 1⟩ := by
  have h4 : 400 ≤ transport.status ∧ transport.status < 600 := by omega
  rw [openRouterCreateResponse, ollamaCreateResponse, if_pos h4, if_pos h4, h]
  exact ⟨rfl, rfl⟩

/-- Witness for C8 amended at the stub 429 transport. -/
theorem C8_rate_limit_propagates_witness :
    (⟨429, [("Retry-After", "30")], ""⟩ : HttpResponse).status = 429 ∧
    openRouterCreateResponse (fun _ => []) ⟨429, [("Retry-After", "30")], ""⟩ =
      ⟨.httpError 429, 1⟩ ∧
    ollamaCreateResponse (fun _ => "") ⟨429, [("Retry-After", "30")], ""⟩ =
      ⟨.httpError 429, 1⟩ :=
  ⟨rfl,
    C8_rate_limit_propagates (fun _ => []) (fun _ => "")
      ⟨429, [("Retry-After", "30")], ""⟩ rfl⟩

/-! ## Split/join lemmas for `insert_in_block` -/

theorem splitNl_ne_nil (s : List Char) : splitNl s ≠ [] := by
  cases s with
  | nil => simp [splitNl]
  | cons c cs =>
      simp only [splitNl]
      split
      · simp
      · split <;> simp

theorem joinNl_cons (x : List Char) (ls : List (List Char)) (h : ls ≠ []) :
    joinNl (x :: ls) = x ++ '\n' :: joinNl ls := by
  cases ls with
  | nil => exact absurd rfl h
  | cons y ys => rfl

theorem joinNl_splitNl (s : List Char) : joinNl (splitNl s) = s := by
  induction s with
  | nil => rfl
  | cons c cs ih =>
      by_cases hc : c = '\n'
      · simp only [splitNl, if_pos hc]
        rw [joinNl_cons _ _ (splitNl_ne_nil cs), ih, hc]
        rfl
      · simp only [splitNl, if_neg hc]
        cases hsp : splitNl cs with
        | nil => exact absurd hsp (splitNl_ne_nil cs)
        | cons l ls =>
            rw [hsp] at ih
            cases ls with
            | nil =>
                simp only [joinNl] at ih ⊢
                rw [ih]
            | cons l' ls' =>
                rw [joinNl_cons _ _ (by simp)] at ih
                rw [joinNl_cons _ _ (by simp), List.cons_append, ih]

theorem joinNl_append_last (ls : List (List Char)) (x : List Char) (h : ls ≠ []) :
    joinNl (ls ++ [x]) = joinNl ls ++ '\n' :: x := by
  induction ls with
  | nil => exact absurd rfl h
  | cons y ys ih =>
      cases ys with
      | nil => rfl
      | cons z zs =>
          rw [List.cons_append, joinNl_cons _ _ (by simp),
            joinNl_cons _ _ (by simp), ih (by simp), List.append_assoc]
          rfl

/-! ## C6 — `insert_in_block` line indexing -/

/-- C6 counterexample: on the block value `a\nb\nc`, `insert_in_block`
with the negative index `-2` inserts before the second-to-last line
(Python `list.insert` semantics), storing `a\nx\nb\nc`; the claim predicts
appending as a new last line, which would store `a\nb\nc\nx`. -/
theorem C6_insert_negative_counterexample :
    (dictGet "scratchpad"
        (insert_in_block [("scratchpad", (⟨"a\nb\nc", "", 5000⟩ : Block))]
          "scratchpad" "x" (-2)).2).map Block.value = some "a\nx\nb\nc" ∧
    ("a\nx\nb\nc" : String) ≠ "a\nb\nc\nx" :=
  ⟨rfl, by decide⟩

/-- C6 amended: `insert_in_block` operates on the value split into lines;
index 0 prepends the text as a new first line; index `-1` — not every
negative index — and every index `≥` the number of lines append it as a
new last line; any other negative index inserts at the Python
`list.insert` position (counted from the end, clamped to the front). The
size limit is re-validated after the edit and a violating result is
rejected without mutating the block. -/
theorem C6_insert_in_block_behavior (blocks : Blocks) (label new_str : String)
    (insert_line : Int) (b : Block) (h : dictGet label blocks = some b) :
    (b.limit < (insertNewValue b new_str insert_line).length →
      ∃ msg, insert_in_block blocks label new_str insert_line = (.error msg, blocks)) ∧
    ((insertNewValue b new_str insert_line).length ≤ b.limit →
      (insert_in_block blocks label new_str insert_line).1 =
        .success label (insertNewValue b new_str insert_line).length ∧
      dictGet label (insert_in_block blocks label new_str insert_line).2 =
        some { b with value := insertNewValue b new_str insert_line }) ∧
    (insert_line = 0 →
      joinNl (insertNewLines b new_str insert_line) =
        if b.value = "" then new_str.toList else new_str.toList ++ '\n' :: b.value.toList) ∧
    (insert_line ≠ 0 →
      (insert_line = -1 ∨ ((blockLines b).length : Int) ≤ insert_line) →
      joinNl (insertNewLines b new_str insert_line) =
        if b.value = "" then new_str.toList else b.value.toList ++ '\n' :: new_str.toList) ∧
    (insert_line < -1 →
      insertNewLines b new_str insert_line =
        insertAt (((blockLines b).length : Int) + insert_line).toNat
          new_str.toList (blockLines b)) := by
  refine ⟨?_, ?_, ?_, ?_, ?_⟩
  · intro hl
    have heq : insert_in_block blocks label new_str insert_line =
        (.error ("Result exceeds limit ("
          ++ toString (insertNewValue b new_str insert_line).length ++ "/"
          ++ toString b.limit ++ " chars)"), blocks) := by
      simp only [insert_in_block, h, if_pos hl]
    exact ⟨_, heq⟩
  · intro hl
    have hnl : ¬ b.limit < (insertNewValue b new_str insert_line).length :=
      Nat.not_lt.mpr hl
    constructor
    · simp only [insert_in_block, h, if_neg hnl]
    · simp only [insert_in_block, h, if_neg hnl]
      exact dictGet_setBlockValue_self blocks label _ b h
  · intro h0
    subst h0
    have hstep : insertNewLines b new_str 0 = new_str.toList :: blockLines b := by
      simp [insertNewLines]
    rw [hstep]
    by_cases hv : b.value = ""
    · simp [blockLines, hv, joinNl]
    · rw [if_neg hv]
      have hbl : blockLines b = splitNl b.value.toList := by
        simp [blockLines, hv]
      rw [hbl, joinNl_cons _ _ (splitNl_ne_nil _), joinNl_splitNl]
  · intro h0 happ
    have hstep : insertNewLines b new_str insert_line =
        blockLines b ++ [new_str.toList] := by
      simp only [insertNewLines, if_neg h0, if_pos happ]
    rw [hstep]
    by_cases hv : b.value = ""
    · simp [blockLines, hv, joinNl]
    · rw [if_neg hv]
      have hbl : blockLines b = splitNl b.value.toList := by
        simp [blockLines, hv]
      rw [hbl, joinNl_append_last _ _ (splitNl_ne_nil _), joinNl_splitNl]
  · intro hneg
    have h0 : insert_line ≠ 0 := by omega
    have hm1 : insert_line ≠ -1 := by omega
    have hge : ¬ (insert_line = -1 ∨ ((blockLines b).length : Int) ≤ insert_line) := by
      push_neg
      refine ⟨hm1, ?_⟩
      omega
    have hlt : ¬ (0 : Int) ≤ insert_line := by omega
    simp only [insertNewLines, if_neg h0, if_neg hge, pyInsert, if_neg hlt]

/-- Witness for C6 amended at a concrete block: index 0 on the value
`a\nb\nc` prepends `x` as a new first line. -/
theorem C6_insert_in_block_behavior_witness :
    dictGet "scratchpad" [("scratchpad", (⟨"a\nb\nc", "", 5000⟩ : Block))] =
      some ⟨"a\nb\nc", "", 5000⟩ ∧
    joinNl (insertNewLines ⟨"a\nb\nc", "", 5000⟩ "x" 0) =
      (if ("a\nb\nc" : String) = "" then ("x" : String).toList
        else ("x" : String).toList ++ '\n' :: ("a\nb\nc" : String).toList) :=
  ⟨rfl,
    (C6_insert_in_block_behavior [("scratchpad", ⟨"a\nb\nc", "", 5000⟩)]
      "scratchpad" "x" 0 ⟨"a\nb\nc", "", 5000⟩ rfl).2.2.1 rfl⟩

/-! ## Occurrence-counting lemmas for `replace_in_block` -/

theorem startsWithL_iff (s pat : List Char) :
    startsWithL s pat = true ↔ ∃ t, s = pat ++ t := by
  induction pat generalizing s with
  | nil =>
      simp only [startsWithL, List.nil_append]
      exact ⟨fun _ => ⟨s, rfl⟩, fun _ => trivial⟩
  | cons p ps ih =>
      cases s with
      | nil => simp [startsWithL]
      | cons c cs =>
          simp only [startsWithL, Bool.and_eq_true, decide_eq_true_eq, ih,
            List.cons_append, List.cons.injEq]
          constructor
          · rintro ⟨hc, t, ht⟩
            exact ⟨t, hc, ht⟩
          · rintro ⟨t, hc, ht⟩
            exact ⟨hc, t, ht⟩

theorem countOccR_cons (c : Char) (cs : List Char) (p : Char) (ps : List Char) :
    countOccR (c :: cs) (p :: ps) =
      if startsWithL (c :: cs) (p :: ps) then
        1 + countOccR ((c :: cs).drop (p :: ps).length) (p :: ps)
      else countOccR cs (p :: ps) := by
  simp only [countOccR]

theorem countOccGo_eq_countOccR (p : Char) (ps : List Char) (cs : List Char)
    (k : Nat) : countOccGo (p :: ps) cs k = countOccR (cs.drop k) (p :: ps) := by
  induction cs generalizing k with
  | nil =>
      cases k <;> simp [countOccGo, countOccR]
  | cons c cs ih =>
      cases k with
      | zero =>
          rw [List.drop_zero]
          by_cases hp : startsWithL (c :: cs) (p :: ps) = true
          · have hgo : countOccGo (p :: ps) (c :: cs) 0 =
                1 + countOccGo (p :: ps) cs ((p :: ps).length - 1) := by
              simp only [countOccGo, if_pos hp]
            rw [hgo, ih, countOccR_cons, if_pos hp]
            simp
          · have hgo : countOccGo (p :: ps) (c :: cs) 0 =
                countOccGo (p :: ps) cs 0 := by
              simp only [countOccGo, if_neg hp]
            rw [hgo, ih, List.drop_zero, countOccR_cons, if_neg hp]
      | succ j =>
          have hgo : countOccGo (p :: ps) (c :: cs) (j + 1) =
              countOccGo (p :: ps) cs j := rfl
          rw [hgo, ih, List.drop_succ_cons]

theorem countOcc_eq_countOccR (s pat : List Char) :
    countOcc s pat = countOccR s pat := by
  cases pat with
  | nil => simp [countOcc, countOccR]
  | cons p ps =>
      have h0 : countOcc s (p :: ps) = countOccGo (p :: ps) s 0 := rfl
      rw [h0, countOccGo_eq_countOccR, List.drop_zero]

theorem containsSub_eq_true_iff (s pat : List Char) :
    containsSub s pat = true ↔ 0 < countOcc s pat := by
  rw [countOcc_eq_countOccR]
  induction s with
  | nil => cases pat <;> simp [containsSub, countOccR]
  | cons c cs ih =>
      cases pat with
      | nil => simp [containsSub, countOccR]
      | cons p ps =>
          rw [countOccR_cons]
          by_cases hp : startsWithL (c :: cs) (p :: ps) = true
          · have hcs : containsSub (c :: cs) (p :: ps) = true := by
              simp [containsSub, hp]
            rw [hcs, if_pos hp]
            exact iff_of_true rfl (by omega)
          · have hcs : containsSub (c :: cs) (p :: ps) = containsSub cs (p :: ps) := by
              simp [containsSub, hp]
            rw [hcs, if_neg hp]
            exact ih

theorem countOccR_eq_one_decomp (s pat new : List Char)
    (h : countOccR s pat = 1) :
    ∃ pre post, s = pre ++ pat ++ post ∧
      replaceOnce s pat new = pre ++ new ++ post := by
  induction s with
  | nil =>
      cases pat with
      | nil => exact ⟨[], [], rfl, rfl⟩
      | cons p ps => simp [countOccR] at h
  | cons c cs ih =>
      cases pat with
      | nil =>
          simp only [countOccR, List.length_cons] at h
          omega
      | cons p ps =>
          by_cases hp : startsWithL (c :: cs) (p :: ps) = true
          · obtain ⟨t, ht⟩ := (startsWithL_iff _ _).mp hp
            refine ⟨[], t, by simpa using ht, ?_⟩
            have hro : replaceOnce (c :: cs) (p :: ps) new =
                new ++ (c :: cs).drop (p :: ps).length := by
              simp only [replaceOnce, if_pos hp]
            rw [hro, ht]
            simp [List.drop_left]
          · have hc : countOccR (c :: cs) (p :: ps) = countOccR cs (p :: ps) := by
              rw [countOccR_cons, if_neg hp]
            rw [hc] at h
            obtain ⟨pre, post, hs, hr⟩ := ih h
            refine ⟨c :: pre, post, by simp [hs], ?_⟩
            have hro : replaceOnce (c :: cs) (p :: ps) new =
                c :: replaceOnce cs (p :: ps) new := by
              simp only [replaceOnce, if_neg hp]
            rw [hro, hr]
            simp

theorem countOcc_eq_one_decomp (s pat new : List Char)
    (h : countOcc s pat = 1) :
    ∃ pre post, s = pre ++ pat ++ post ∧
      replaceOnce s pat new = pre ++ new ++ post :=
  countOccR_eq_one_decomp s pat new (by rw [← countOcc_eq_countOccR]; exact h)

/-! ## C5 — replace precision in `replace_in_block` -/

/-- C5: for every existing block label, `replace_in_block` fails without
mutating when `old_str` occurs zero times or more than once in the value
(or when the substituted result would exceed the limit); when it occurs
exactly once and the result fits, it succeeds and the new stored value is
the old value with that single occurrence replaced by `new_str`. -/
theorem C5_replace_in_block_precision (blocks : Blocks)
    (label old_str new_str : String) (b : Block)
    (h : dictGet label blocks = some b) :
    (countOcc b.value.toList old_str.toList = 0 ∨
        1 < countOcc b.value.toList old_str.toList ∨
        b.limit < (replaceOnce b.value.toList old_str.toList new_str.toList).length →
      ∃ msg, replace_in_block blocks label old_str new_str = (.error msg, blocks)) ∧
    (countOcc b.value.toList old_str.toList = 1 →
      (replaceOnce b.value.toList old_str.toList new_str.toList).length ≤ b.limit →
      ∃ pre post,
        b.value.toList = pre ++ old_str.toList ++ post ∧
        (replace_in_block blocks label old_str new_str).1 =
          .success label (pre ++ new_str.toList ++ post).length ∧
        dictGet label (replace_in_block blocks label old_str new_str).2 =
          some { b with value := (pre ++ new_str.toList ++ post).asString }) := by
  have hlen : ∀ l : List Char, (List.asString l).length = l.length := fun _ => rfl
  constructor
  · intro hfail
    by_cases hz : countOcc b.value.toList old_str.toList = 0
    · have hb : ¬ containsSub b.value.toList old_str.toList = true := by
        rw [containsSub_eq_true_iff]
        omega
      refine ⟨"Text not found in block " ++ label, ?_⟩
      simp only [replace_in_block, h, if_pos hb]
    · by_cases hgt : 1 < countOcc b.value.toList old_str.toList
      · have hb : containsSub b.value.toList old_str.toList = true := by
          rw [containsSub_eq_true_iff]
          omega
        refine ⟨"Multiple matches found - be more specific with old_str", ?_⟩
        simp only [replace_in_block, h, if_neg (not_not_intro hb), if_pos hgt]
      · have hb : containsSub b.value.toList old_str.toList = true := by
          rw [containsSub_eq_true_iff]
          omega
        have hlim : b.limit <
            (replaceOnce b.value.toList old_str.toList new_str.toList).length := by
          rcases hfail with hf | hf | hf
          · exact absurd hf hz
          · exact absurd hf hgt
          · exact hf
        have hlim' : b.limit <
            ((replaceOnce b.value.toList old_str.toList new_str.toList).asString).length := by
          rw [hlen]
          exact hlim
        refine ⟨"Result exceeds limit ("
          ++ toString ((replaceOnce b.value.toList old_str.toList new_str.toList).asString).length
          ++ "/" ++ toString b.limit ++ " chars)", ?_⟩
        simp only [replace_in_block, h, if_neg (not_not_intro hb), if_neg hgt,
          if_pos hlim']
  · intro hone hfit
    have hb : containsSub b.value.toList old_str.toList = true := by
      rw [containsSub_eq_true_iff]
      omega
    have hgt : ¬ 1 < countOcc b.value.toList old_str.toList := by omega
    obtain ⟨pre, post, hs, hr⟩ :=
      countOcc_eq_one_decomp b.value.toList old_str.toList new_str.toList hone
    have hfit' : ¬ b.limit <
        ((replaceOnce b.value.toList old_str.toList new_str.toList).asString).length := by
      rw [hlen]
      omega
    have hred : replace_in_block blocks label old_str new_str =
        (.success label
            ((replaceOnce b.value.toList old_str.toList new_str.toList).asString).length,
          setBlockValue blocks label
            ((replaceOnce b.value.toList old_str.toList new_str.toList).asString)) := by
      simp only [replace_in_block, h, if_neg (not_not_intro hb), if_neg hgt,
        if_neg hfit']
    refine ⟨pre, post, hs, ?_, ?_⟩
    · rw [hred]
      simp only [hlen, hr]
    · rw [hred]
      show dictGet label (setBlockValue blocks label
        ((replaceOnce b.value.toList old_str.toList new_str.toList).asString)) = _
      rw [hr]
      exact dictGet_setBlockValue_self blocks label _ b h

/-- Witness for C5 at a concrete block: replacing the unique occurrence of
`world` in `hello world` by `lean` succeeds and stores the substituted
value. -/
theorem C5_replace_in_block_precision_witness :
    dictGet "persona" [("persona", (⟨"hello world", "", 100⟩ : Block))] =
      some ⟨"hello world", "", 100⟩ ∧
    countOcc ("hello world" : String).toList ("world" : String).toList = 1 ∧
    (replaceOnce ("hello world" : String).toList ("world" : String).toList
      ("lean" : String).toList).length ≤ 100 ∧
    (∃ pre post,
      ("hello world" : String).toList = pre ++ ("world" : String).toList ++ post ∧
      (replace_in_block [("persona", ⟨"hello world", "", 100⟩)]
          "persona" "world" "lean").1 =
        .success "persona" (pre ++ ("lean" : String).toList ++ post).length ∧
      dictGet "persona"
          (replace_in_block [("persona", ⟨"hello world", "", 100⟩)]
            "persona" "world" "lean").2 =
        some ⟨(pre ++ ("lean" : String).toList ++ post).asString, "", 100⟩) :=
  ⟨rfl, by decide, by decide,
    (C5_replace_in_block_precision [("persona", ⟨"hello world", "", 100⟩)]
      "persona" "world" "lean" ⟨"hello world", "", 100⟩ rfl).2 (by decide) (by decide)⟩

/-! ## Sorting lemmas for the archival eviction -/

theorem insertDesc_perm [LinearOrder β] (key : α → β) (x : α) (l : List α) :
    (insertDesc key x l).Perm (x :: l) := by
  induction l with
  | nil => exact List.Perm.refl _
  | cons y ys ih =>
      by_cases hxy : key x < key y
      · simp only [insertDesc, if_pos hxy]
        exact (ih.cons y).trans (List.Perm.swap x y ys)
      · simp only [insertDesc, if_neg hxy]
        exact List.Perm.refl _

theorem mem_insertDesc [LinearOrder β] (key : α → β) (x a : α) (l : List α) :
    a ∈ insertDesc key x l ↔ a = x ∨ a ∈ l := by
  rw [(insertDesc_perm key x l).mem_iff]
  simp

theorem sortDesc_perm [LinearOrder β] (key : α → β) (l : List α) :
    (sortDesc key l).Perm l := by
  induction l with
  | nil => exact List.Perm.refl _
  | cons x xs ih =>
      exact (insertDesc_perm key x (sortDesc key xs)).trans (ih.cons x)

theorem insertDesc_sorted [LinearOrder β] (key : α → β) (x : α) (l : List α)
    (h : l.Pairwise fun a b => key b ≤ key a) :
    (insertDesc key x l).Pairwise fun a b => key b ≤ key a := by
  induction l with
  | nil => simp [insertDesc]
  | cons y ys ih =>
      rcases List.pairwise_cons.mp h with ⟨hy, hys⟩
      by_cases hxy : key x < key y
      · simp only [insertDesc, if_pos hxy]
        refine List.pairwise_cons.mpr ⟨?_, ih hys⟩
        intro a ha
        rcases (mem_insertDesc key x a ys).mp ha with rfl | ha'
        · exact le_of_lt hxy
        · exact hy a ha'
      · simp only [insertDesc, if_neg hxy]
        refine List.pairwise_cons.mpr ⟨?_, h⟩
        intro a ha
        rcases List.mem_cons.mp ha with rfl | ha'
        · exact not_lt.mp hxy
        · exact le_trans (hy a ha') (not_lt.mp hxy)

theorem sortDesc_sorted [LinearOrder β] (key : α → β) (l : List α) :
    (sortDesc key l).Pairwise fun a b => key b ≤ key a := by
  induction l with
  | nil => simp [sortDesc]
  | cons x xs ih => exact insertDesc_sorted key x (sortDesc key xs) ih

/-- In a list sorted descending by `key`, an element that occurs exactly
once and has strictly smaller key than every other element sits at the
very end. -/
theorem sorted_desc_unique_min_last [DecidableEq α] [LinearOrder β]
    (key : α → β) :
    ∀ (s : List α) (m : α),
      s.Pairwise (fun a b => key b ≤ key a) → m ∈ s → s.count m = 1 →
      (∀ x ∈ s, x ≠ m → key m < key x) →
      ∃ t, s = t ++ [m] ∧ m ∉ t
  | [], m, _, hm, _, _ => absurd hm (by simp)
  | [y], m, _, hm, _, _ => by
      have hym : m = y := by simpa using hm
      exact ⟨[], by simp [hym], by simp⟩
  | y :: z :: zs, m, hsort, hm, hcount, hmin => by
      rcases List.pairwise_cons.mp hsort with ⟨hy, htail⟩
      have hym : ¬ y = m := by
        intro he
        subst he
        have hnm : y ∉ z :: zs := by
          rw [← List.count_eq_zero]
          have hc : (y :: z :: zs).count y = (z :: zs).count y + 1 := by
            simp [List.count_cons]
          omega
        have hz : z ≠ y := fun he2 => hnm (he2 ▸ List.mem_cons_self z zs)
        have h1 : key y < key z := hmin z (by simp) hz
        have h2 : key z ≤ key y := hy z (by simp)
        exact absurd h1 (not_lt.mpr h2)
      have hm' : m ∈ z :: zs := by
        rcases List.mem_cons.mp hm with he | h'
        · exact absurd he.symm hym
        · exact h'
      have hcount' : (z :: zs).count m = 1 := by
        have hc : (y :: z :: zs).count m = (z :: zs).count m := by
          rw [List.count_cons]
          simp [hym]
        omega
      have hmin' : ∀ x ∈ z :: zs, x ≠ m → key m < key x := fun x hx hxm =>
        hmin x (List.mem_cons_of_mem y hx) hxm
      obtain ⟨t, ht, hnt⟩ :=
        sorted_desc_unique_min_last key (z :: zs) m htail hm' hcount' hmin'
      exact ⟨y :: t, by simp [ht], by
        simp only [List.mem_cons]
        rintro (he | h')
        · exact hym he.symm
        · exact hnt h'⟩

/-! ## C7 — archival eviction at capacity -/

/-- C7: with the store at the maximum size (1000 entries), `remember` of
new non-duplicate content whose (clamped) importance is strictly higher
than the importance of the unique minimum-ranked entry under the
`(importance, access_count)` ordering succeeds, evicts exactly that
lowest-ranked entry, and retains the new entry and all others, leaving the
store at the maximum size. -/
theorem C7_remember_eviction (hashFn : String → String)
    (embedFn : Option (String → List Int)) (now : String) (st : MemState)
    (content : String) (tags : List String) (importance : Int) (m : MemEntry)
    (hsize : st.archival.length = MAX_ARCHIVAL)
    (hdup : ∀ e ∈ st.archival, e.hash ≠ hashFn content)
    (hm : m ∈ st.archival)
    (hcount : st.archival.count m = 1)
    (hmin : ∀ e ∈ st.archival, e ≠ m → rankKey m < rankKey e)
    (himp : m.importance <
      (mkArchivalEntry hashFn embedFn now content tags importance).importance) :
    (remember hashFn embedFn now st content tags importance).1 = .ok (hashFn content) ∧
    (remember hashFn embedFn now st content tags importance).2.archival.length =
      MAX_ARCHIVAL ∧
    (remember hashFn embedFn now st content tags importance).2.archival.Perm
      (mkArchivalEntry hashFn embedFn now content tags importance ::
        st.archival.erase m) := by
  set e := mkArchivalEntry hashFn embedFn now content tags importance with he
  have hany : (st.archival.any fun x => x.hash = hashFn content) = false := by
    rw [List.any_eq_false]
    intro x hx
    simpa using hdup x hx
  have hgrow : MAX_ARCHIVAL < (e :: st.archival).length := by
    simp [hsize]
  have hrem : remember hashFn embedFn now st content tags importance =
      (.ok (hashFn content),
        { st with
            archival := (sortDesc rankKey (e :: st.archival)).take MAX_ARCHIVAL,
            memoriesWritten := st.memoriesWritten + 1 }) := by
    rw [remember]
    simp only [hany, Bool.false_eq_true, if_false, ← he, if_pos hgrow]
  -- the freshly inserted entry ranks strictly above the unique minimum
  have hem : e ≠ m := by
    intro hem
    rw [hem] at himp
    exact lt_irrefl _ himp
  have hkey : rankKey m < rankKey e := by
    rw [rankKey, rankKey, Prod.Lex.lt_iff]
    exact Or.inl himp
  have hmin' : ∀ x ∈ e :: st.archival, x ≠ m → rankKey m < rankKey x := by
    intro x hx hxm
    rcases List.mem_cons.mp hx with rfl | hx'
    · exact hkey
    · exact hmin x hx' hxm
  have hm' : m ∈ e :: st.archival := List.mem_cons_of_mem e hm
  have hcount' : (e :: st.archival).count m = 1 := by
    rw [List.count_cons]
    have heqf : (e == m) = false := by
      simp [hem]
    simp [heqf, hcount]
  have hsorted := sortDesc_sorted rankKey (e :: st.archival)
  have hperm := sortDesc_perm rankKey (e :: st.archival)
  obtain ⟨t, ht, hnt⟩ := sorted_desc_unique_min_last rankKey
    (sortDesc rankKey (e :: st.archival)) m hsorted
    (hperm.mem_iff.mpr hm') (by rw [hperm.count_eq]; exact hcount')
    (fun x hx hxm => hmin' x (hperm.mem_iff.mp hx) hxm)
  have htlen : t.length = MAX_ARCHIVAL := by
    have hls : (sortDesc rankKey (e :: st.archival)).length =
        (e :: st.archival).length := hperm.length_eq
    rw [ht] at hls
    simp only [List.length_append, List.length_cons, List.length_nil,
      hsize] at hls
    omega
  have htake : (sortDesc rankKey (e :: st.archival)).take MAX_ARCHIVAL = t := by
    rw [ht, ← htlen]
    exact List.take_left t [m]
  have hterase : t.Perm ((e :: st.archival).erase m) := by
    have h1 : (sortDesc rankKey (e :: st.archival)).erase m = t := by
      rw [ht, List.erase_append_right [m] hnt]
      simp
    have h2 := hperm.erase m
    rw [h1] at h2
    exact h2
  have hec : (e :: st.archival).erase m = e :: st.archival.erase m :=
    List.erase_cons_tail (by simp [hem])
  refine ⟨by rw [hrem], ?_, ?_⟩
  · rw [hrem]
    simp only [htake, htlen]
  · rw [hrem]
    simp only [htake]
    rw [← hec]
    exact hterase

/-- A high-ranked archival entry used to fill the store in the C7 witness. -/
def wHigh : MemEntry := ⟨"hH", "hH", "high", [], 5, "t0", "t0", 0, none⟩

/-- The unique lowest-ranked archival entry of the C7 witness store. -/
def wLow : MemEntry := ⟨"hL", "hL", "low", [], 1, "t0", "t0", 0, none⟩

/-- A store holding exactly `MAX_ARCHIVAL` entries: 999 high-ranked ones
and one unique minimum. -/
def wStore : MemState := ⟨List.replicate 999 wHigh ++ [wLow], 0, 0⟩

/-- Witness for C7: at the concrete full store, remembering new content of
clamped importance 3 succeeds, keeps the store at 1000 entries, and the
result is the new entry plus the old store with the unique minimum
evicted. -/
theorem C7_remember_eviction_witness :
    wStore.archival.length = MAX_ARCHIVAL ∧
    (∀ e ∈ wStore.archival, e.hash ≠ (fun _ => "hN") "c") ∧
    wLow ∈ wStore.archival ∧
    wStore.archival.count wLow = 1 ∧
    (∀ e ∈ wStore.archival, e ≠ wLow → rankKey wLow < rankKey e) ∧
    wLow.importance < (mkArchivalEntry (fun _ => "hN") none "t1" "c" [] 3).importance ∧
    ((remember (fun _ => "hN") none "t1" wStore "c" [] 3).1 = .ok "hN" ∧
      (remember (fun _ => "hN") none "t1" wStore "c" [] 3).2.archival.length =
        MAX_ARCHIVAL ∧
      (remember (fun _ => "hN") none "t1" wStore "c" [] 3).2.archival.Perm
        (mkArchivalEntry (fun _ => "hN") none "t1" "c" [] 3 ::
          wStore.archival.erase wLow)) := by
  have h1 : wStore.archival.length = MAX_ARCHIVAL := by
    show (List.replicate 999 wHigh ++ [wLow]).length = MAX_ARCHIVAL
    rw [List.length_append, List.length_replicate]
    rfl
  have h2 : ∀ e ∈ wStore.archival, e.hash ≠ (fun _ => "hN") "c" := by
    intro x hx
    rcases List.mem_append.mp hx with hr | hs
    · rw [List.eq_of_mem_replicate hr]
      decide
    · rw [List.mem_singleton.mp hs]
      decide
  have h3 : wLow ∈ wStore.archival :=
    List.mem_append_right _ (List.mem_singleton_self _)
  have h4 : wStore.archival.count wLow = 1 := by
    have hne : (wHigh == wLow) = false := by decide
    show (List.replicate 999 wHigh ++ [wLow]).count wLow = 1
    rw [List.count_append, List.count_replicate, hne]
    decide
  have h5 : ∀ e ∈ wStore.archival, e ≠ wLow → rankKey wLow < rankKey e := by
    intro x hx hne
    rcases List.mem_append.mp hx with hr | hs
    · rw [List.eq_of_mem_replicate hr, rankKey, rankKey, Prod.Lex.lt_iff]
      left
      decide
    · exact absurd (List.mem_singleton.mp hs) hne
  have h6 : wLow.importance <
      (mkArchivalEntry (fun _ => "hN") none "t1" "c" [] 3).importance := by
    decide
  exact ⟨h1, h2, h3, h4, h5, h6,
    C7_remember_eviction (fun _ => "hN") none "t1" wStore "c" [] 3 wLow
      h1 h2 h3 h4 h5 h6⟩

/-! ## C10 — keyword fallback recall never filters entries out -/

theorem foldl_le_of_step (f : ℚ → String → ℚ) (hf : ∀ acc w, acc ≤ f acc w) :
    ∀ (ws : List String) (acc : ℚ), acc ≤ ws.foldl f acc := by
  intro ws
  induction ws with
  | nil => intro acc; exact le_refl acc
  | cons w ws ih =>
      intro acc
      exact le_trans (hf acc w) (ih (f acc w))

theorem keywordScore_pos (words : List String) (m : MemEntry)
    (h : 1 ≤ m.importance) : 0 < keywordScore words m := by
  unfold keywordScore
  have hbase : (0 : ℚ) ≤ words.foldl
      (fun acc w =>
        acc + (if containsSub m.content.toLower.toList w.toList then 2 else 0)
            + (if (m.tags.map fun t => t.toLower.toList).any
                  (fun t => containsSub t w.toList) then 3 else 0)) 0 := by
    refine foldl_le_of_step _ ?_ words 0
    intro acc w
    have h2 : (0 : ℚ) ≤ (if containsSub m.content.toLower.toList w.toList then 2 else 0) := by
      split <;> norm_num
    have h3 : (0 : ℚ) ≤ (if (m.tags.map fun t => t.toLower.toList).any
        (fun t => containsSub t w.toList) then 3 else 0) := by
      split <;> norm_num
    linarith
  have himp : (1 : ℚ) ≤ (m.importance : ℚ) := by
    exact_mod_cast h
  linarith

theorem filterMap_pos_score (words : List String) :
    ∀ (l : List MemEntry), (∀ m ∈ l, 1 ≤ m.importance) →
      (l.filterMap fun m =>
        if 0 < keywordScore words m then some (m, keywordScore words m) else none) =
      l.map fun m => (m, keywordScore words m) := by
  intro l
  induction l with
  | nil => intro _; rfl
  | cons m ms ih =>
      intro h
      have hm : 0 < keywordScore words m :=
        keywordScore_pos words m (h m (List.mem_cons_self m ms))
      simp only [List.filterMap_cons, List.map_cons, if_pos hm]
      rw [ih fun x hx => h x (List.mem_cons_of_mem m hx)]

/-- C10: every archival entry built by `remember` has importance clamped
into `[1, 10]`, so in the keyword fallback of `recall` every stored entry
scores at least `importance / 2 ≥ 1/2 > 0`; the positive-score filter
therefore keeps every entry and a keyword-fallback `recall(query, limit)`
reports exactly `min limit (store size)` hits, whatever the query. -/
theorem C10_keyword_fallback_full_recall :
    (∀ (hashFn : String → String) (embedFn : Option (String → List Int))
        (now content : String) (tags : List String) (importance : Int),
      1 ≤ (mkArchivalEntry hashFn embedFn now content tags importance).importance ∧
      (mkArchivalEntry hashFn embedFn now content tags importance).importance ≤ 10) ∧
    (∀ (now : String) (st : MemState) (query : String) (limit : Nat),
      (∀ m ∈ st.archival, 1 ≤ m.importance) →
      (∀ m ∈ st.archival, 0 < keywordScore (queryWords query) m) ∧
      (AgentMemory.recall now st query limit).1.found = min limit st.archival.length) := by
  constructor
  · intro hashFn embedFn now content tags importance
    constructor
    · show (1 : Int) ≤ min (max importance 1) 10
      omega
    · show min (max importance 1) 10 ≤ (10 : Int)
      omega
  · intro now st query limit h
    refine ⟨fun m hm => keywordScore_pos (queryWords query) m (h m hm), ?_⟩
    show ((sortDesc (fun r : MemEntry × ℚ => r.2)
        (st.archival.filterMap fun m =>
          if 0 < keywordScore (queryWords query) m then
            some (m, keywordScore (queryWords query) m)
          else none)).take limit).length = min limit st.archival.length
    rw [filterMap_pos_score (queryWords query) st.archival h, List.length_take,
      (sortDesc_perm (fun r : MemEntry × ℚ => r.2) _).length_eq, List.length_map]

/-- Witness for C10 at a concrete two-entry store and a query matching
nothing: recall still reports `min 5 2 = 2` hits. -/
theorem C10_keyword_fallback_full_recall_witness :
    (∀ m ∈ (⟨[⟨"a", "a", "alpha", [], 1, "t", "t", 0, none⟩,
        ⟨"b", "b", "beta", [], 1, "t", "t", 0, none⟩], 0, 0⟩ : MemState).archival,
      1 ≤ m.importance) ∧
    (AgentMemory.recall "t2"
        ⟨[⟨"a", "a", "alpha", [], 1, "t", "t", 0, none⟩,
          ⟨"b", "b", "beta", [], 1, "t", "t", 0, none⟩], 0, 0⟩ "zzz" 5).1.found =
      min 5 (⟨[⟨"a", "a", "alpha", [], 1, "t", "t", 0, none⟩,
        ⟨"b", "b", "beta", [], 1, "t", "t", 0, none⟩], 0, 0⟩ : MemState).archival.length :=
  ⟨by decide,
    (C10_keyword_fallback_full_recall.2 "t2"
      ⟨[⟨"a", "a", "alpha", [], 1, "t", "t", 0, none⟩,
        ⟨"b", "b", "beta", [], 1, "t", "t", 0, none⟩], 0, 0⟩ "zzz" 5 (by decide)).2⟩

/-! ## Agent-loop pairing machinery (C1–C3) -/

/-- Checker for the call/output pairing discipline: the list is a sequence
of `function_call` items each immediately followed by exactly one
`function_call_output` with the same `call_id`. -/
def pairedChain : List Item → Bool
  | [] => true
  | .functionCall cid _ _ :: .functionCallOutput cid' _ :: rest =>
      decide (cid = cid') && pairedChain rest
  | _ => false

/-- Number of `function_call` items bearing a given `call_id`. -/
def callCount : List Item → String → Nat
  | [], _ => 0
  | .functionCall c _ _ :: rest, cid =>
      (if c = cid then 1 else 0) + callCount rest cid
  | _ :: rest, cid => callCount rest cid

/-- Number of `function_call_output` items bearing a given `call_id`. -/
def outCount : List Item → String → Nat
  | [], _ => 0
  | .functionCallOutput c _ :: rest, cid =>
      (if c = cid then 1 else 0) + outCount rest cid
  | _ :: rest, cid => outCount rest cid

theorem pairItems_append (a b : List (FC × String)) :
    pairItems (a ++ b) = pairItems a ++ pairItems b := by
  induction a with
  | nil => rfl
  | cons p rest ih =>
      obtain ⟨fc, res⟩ := p
      simp [pairItems, ih]

theorem pairedChain_pairItems (ps : List (FC × String)) :
    pairedChain (pairItems ps) = true := by
  induction ps with
  | nil => rfl
  | cons p rest ih =>
      obtain ⟨fc, res⟩ := p
      simp [pairItems, pairedChain, ih]

theorem callCount_eq_outCount_pairItems (ps : List (FC × String)) (cid : String) :
    callCount (pairItems ps) cid = outCount (pairItems ps) cid := by
  induction ps with
  | nil => rfl
  | cons p rest ih =>
      obtain ⟨fc, res⟩ := p
      simp only [pairItems, callCount, outCount, ih]

/-- One iteration's context growth: the next model call's context is the
previous one extended with the executed call/output pairs of the calls the
provider emitted there, in emission order. -/
def contextStep (client : List Item → Output) (r : ToolRegistry)
    (parseJson : ArgParser) (a b : List Item) : Prop :=
  b = a ++ pairItems (execPairs parseJson r (getFunctionCalls (client a)))

theorem thinkAux_contexts_invariant (client : List Item → Output)
    (r : ToolRegistry) (parseJson : ArgParser) :
    ∀ (fuel : Nat) (items : List Item),
      List.Chain' (contextStep client r parseJson)
        (thinkAux client r parseJson fuel items).2 ∧
      (∀ ctx ∈ (thinkAux client r parseJson fuel items).2,
        ∃ ps, ctx = items ++ pairItems ps) ∧
      ((thinkAux client r parseJson fuel items).2 = [] ∨
        (thinkAux client r parseJson fuel items).2.head? = some items) := by
  intro fuel
  induction fuel with
  | zero =>
      intro items
      refine ⟨List.chain'_nil, ?_, Or.inl rfl⟩
      intro ctx hctx
      simp [thinkAux] at hctx
  | succ fuel ih =>
      intro items
      by_cases hfc : (getFunctionCalls (client items)).isEmpty = true
      · have hat : thinkAux client r parseJson (fuel + 1) items =
            (((getText (client items)).getD ""), [items]) := by
          simp only [thinkAux, if_pos hfc]
        rw [hat]
        refine ⟨List.chain'_singleton _, ?_, Or.inr rfl⟩
        intro ctx hctx
        rcases List.mem_singleton.mp hctx with rfl
        exact ⟨[], by simp [pairItems]⟩
      · have hat : thinkAux client r parseJson (fuel + 1) items =
            ((thinkAux client r parseJson fuel
                (items ++ pairItems (execPairs parseJson r
                  (getFunctionCalls (client items))))).1,
             items :: (thinkAux client r parseJson fuel
                (items ++ pairItems (execPairs parseJson r
                  (getFunctionCalls (client items))))).2) := by
          simp only [thinkAux, if_neg hfc]
        rw [hat]
        obtain ⟨ihchain, ihshape, ihhead⟩ :=
          ih (items ++ pairItems (execPairs parseJson r
            (getFunctionCalls (client items))))
        refine ⟨?_, ?_, Or.inr rfl⟩
        · rw [List.chain'_cons']
          refine ⟨?_, ihchain⟩
          intro y hy
          rcases ihhead with hnil | hhead
          · rw [hnil] at hy
            simp at hy
          · rw [hhead] at hy
            simp only [Option.mem_def, Option.some.injEq] at hy
            rw [← hy]
            rfl
        · intro ctx hctx
          rcases List.mem_cons.mp hctx with rfl | h'
          · exact ⟨[], by simp [pairItems]⟩
          · obtain ⟨ps, hps⟩ := ihshape ctx h'
            exact ⟨execPairs parseJson r (getFunctionCalls (client items)) ++ ps,
              by rw [hps, pairItems_append, List.append_assoc]⟩

/-! ## C1 — the call/output pairing invariant of `Agent.think` -/

/-- C1: across every run of `Agent.think`, the contexts passed to the
model form a chain in which each context extends the previous one by the
provider-order call/output pairs of that iteration, appended before the
next model call; the first context is the initial one; every context is
the initial context plus a well-paired suffix, in which every appended
`function_call` is immediately followed by exactly one
`function_call_output` with the same `call_id`, and the appended call and
output counts agree for every `call_id`. -/
theorem C1_pairing_invariant (client : List Item → Output) (r : ToolRegistry)
    (parseJson : ArgParser) (maxIterations : Nat) (systemPrompt : String)
    (context : List Item) (userInput : String) :
    List.Chain' (contextStep client r parseJson)
      (thinkContexts client r parseJson maxIterations systemPrompt context userInput) ∧
    (0 < maxIterations →
      (thinkContexts client r parseJson maxIterations systemPrompt context
        userInput).head? = some (initialItems systemPrompt context userInput)) ∧
    (∀ ctx ∈ thinkContexts client r parseJson maxIterations systemPrompt context
        userInput,
      ∃ ps, ctx = initialItems systemPrompt context userInput ++ pairItems ps ∧
        pairedChain (pairItems ps) = true ∧
        ∀ cid, callCount (pairItems ps) cid = outCount (pairItems ps) cid) := by
  obtain ⟨hchain, hshape, hhead⟩ := thinkAux_contexts_invariant client r parseJson
    maxIterations (initialItems systemPrompt context userInput)
  refine ⟨hchain, ?_, ?_⟩
  · intro hpos
    rcases hhead with hnil | hh
    · exfalso
      rcases Nat.exists_eq_add_of_lt hpos with ⟨k, hk⟩
      rw [Nat.zero_add] at hk
      rw [hk] at hnil
      revert hnil
      show thinkContexts client r parseJson (k + 1) systemPrompt context userInput ≠ []
      show (thinkAux client r parseJson (k + 1)
        (initialItems systemPrompt context userInput)).2 ≠ []
      by_cases hfc : (getFunctionCalls
          (client (initialItems systemPrompt context userInput))).isEmpty = true
      · simp only [thinkAux, if_pos hfc]
        simp
      · simp only [thinkAux, if_neg hfc]
        simp
    · exact hh
  · intro ctx hctx
    obtain ⟨ps, hps⟩ := hshape ctx hctx
    exact ⟨ps, hps, pairedChain_pairItems ps,
      fun cid => callCount_eq_outCount_pairItems ps cid⟩

/-- Witness for C1 at a concrete run (two iterations of a stub client that
always calls the tool `t`): instantiates the pairing invariant. -/
theorem C1_pairing_invariant_witness :
    (0 < 2) ∧
    ((thinkContexts (fun _ => [.functionCall "c" "t" "x"]) ToolRegistry.empty
        (fun _ => .error "bad") 2 "" [] "hi").head? =
      some (initialItems "" [] "hi")) :=
  ⟨by decide,
    (C1_pairing_invariant (fun _ => [.functionCall "c" "t" "x"])
      ToolRegistry.empty (fun _ => .error "bad") 2 "" [] "hi").2.1 (by decide)⟩

/-! ## C2 — termination at the iteration bound -/

theorem thinkAux_all_calls (client : List Item → Output) (r : ToolRegistry)
    (parseJson : ArgParser) (h : ∀ items, getFunctionCalls (client items) ≠ []) :
    ∀ (fuel : Nat) (items : List Item),
      (thinkAux client r parseJson fuel items).1 =
        "Agent reached maximum iterations without completing." ∧
      (thinkAux client r parseJson fuel items).2.length = fuel := by
  intro fuel
  induction fuel with
  | zero => intro items; exact ⟨rfl, rfl⟩
  | succ fuel ih =>
      intro items
      have hfc : ¬ (getFunctionCalls (client items)).isEmpty = true := by
        rw [List.isEmpty_iff]
        exact h items
      have hat : thinkAux client r parseJson (fuel + 1) items =
          ((thinkAux client r parseJson fuel
              (items ++ pairItems (execPairs parseJson r
                (getFunctionCalls (client items))))).1,
           items :: (thinkAux client r parseJson fuel
              (items ++ pairItems (execPairs parseJson r
                (getFunctionCalls (client items))))).2) := by
        simp only [thinkAux, if_neg hfc]
      rw [hat]
      obtain ⟨ih1, ih2⟩ := ih (items ++ pairItems (execPairs parseJson r
        (getFunctionCalls (client items))))
      exact ⟨ih1, by simp [ih2]⟩

/-- C2: for every client whose responses always contain at least one
`function_call` (so the loop never reaches a final message),
`Agent.think` makes exactly `max_iterations` model calls and returns the
fixed max-iterations message instead of raising or looping forever. -/
theorem C2_max_iterations_bound (client : List Item → Output) (r : ToolRegistry)
    (parseJson : ArgParser) (maxIterations : Nat) (systemPrompt : String)
    (context : List Item) (userInput : String)
    (h : ∀ items, getFunctionCalls (client items) ≠ []) :
    Agent.think client r parseJson maxIterations systemPrompt context userInput =
      "Agent reached maximum iterations without completing." ∧
    (thinkContexts client r parseJson maxIterations systemPrompt context
      userInput).length = maxIterations :=
  thinkAux_all_calls client r parseJson h maxIterations
    (initialItems systemPrompt context userInput)

/-- Witness for C2: a stub client that always returns one `function_call`
makes a 3-iteration agent stop after exactly 3 model calls with the
max-iterations message. -/
theorem C2_max_iterations_bound_witness :
    (∀ items : List Item,
      getFunctionCalls ((fun _ : List Item => [.functionCall "c" "t" "x"]) items) ≠ []) ∧
    Agent.think (fun _ => [.functionCall "c" "t" "x"]) ToolRegistry.empty
      (fun _ => .error "bad") 3 "" [] "hi" =
      "Agent reached maximum iterations without completing." ∧
    (thinkContexts (fun _ => [.functionCall "c" "t" "x"]) ToolRegistry.empty
      (fun _ => .error "bad") 3 "" [] "hi").length = 3 :=
  ⟨fun _ => List.cons_ne_nil _ _,
    C2_max_iterations_bound (fun _ => [.functionCall "c" "t" "x"])
      ToolRegistry.empty (fun _ => .error "bad") 3 "" [] "hi"
      (fun _ => List.cons_ne_nil _ _)⟩

/-! ## C3 — tool errors are contained per call -/

/-- C3: whenever executing one function call raises — its JSON arguments
fail to parse, its name is unregistered (`Unknown tool`), or its handler
throws — the exception is not propagated: the paired output's content is
the error-describing string `Error: {str(e)}`, the loop's next step is the
same recursion on the context extended with all the pairs (so the
remaining calls and the next iteration still run), and the failing call's
pair carries that error text. -/
theorem C3_tool_error_contained (parseJson : ArgParser) (r : ToolRegistry)
    (fc : FC) (e : String) (h : execCallE parseJson r fc = .error e) :
    execCall parseJson r fc = "Error: " ++ e ∧
    (∀ args, parseJson fc.arguments = .ok args →
      dictGet fc.name r.handlers = none →
      execCallE parseJson r fc = .error ("Unknown tool: " ++ fc.name)) ∧
    (∀ (client : List Item → Output) (fuel : Nat) (items : List Item),
      getFunctionCalls (client items) ≠ [] →
      thinkAux client r parseJson (fuel + 1) items =
        ((thinkAux client r parseJson fuel
            (items ++ pairItems (execPairs parseJson r
              (getFunctionCalls (client items))))).1,
         items :: (thinkAux client r parseJson fuel
            (items ++ pairItems (execPairs parseJson r
              (getFunctionCalls (client items))))).2)) ∧
    (∀ fcs : List FC, fc ∈ fcs →
      (fc, "Error: " ++ e) ∈ execPairs parseJson r fcs) := by
  have hcall : execCall parseJson r fc = "Error: " ++ e := by
    rw [execCall, h]
  refine ⟨hcall, ?_, ?_, ?_⟩
  · intro args hp hn
    simp only [execCallE, hp, ToolRegistry.execute, hn]
  · intro client fuel items hfc
    have hne : ¬ (getFunctionCalls (client items)).isEmpty = true := by
      rw [List.isEmpty_iff]
      exact hfc
    simp only [thinkAux, if_neg hne]
  · intro fcs hmem
    rw [← hcall]
    exact List.mem_map_of_mem (fun g => (g, execCall parseJson r g)) hmem

/-- Witness for C3: a parser that rejects every arguments string makes the
call's paired output the error text, via the theorem. -/
theorem C3_tool_error_contained_witness :
    execCallE (fun _ => .error "bad") ToolRegistry.empty ⟨"c", "t", "x"⟩ =
      .error "bad" ∧
    execCall (fun _ => .error "bad") ToolRegistry.empty ⟨"c", "t", "x"⟩ =
      "Error: " ++ "bad" :=
  ⟨rfl,
    (C3_tool_error_contained (fun _ => .error "bad") ToolRegistry.empty
      ⟨"c", "t", "x"⟩ "bad" rfl).1⟩

end OpenMolt
